import Mathlib

/-!
Verification of the goimports-rereviser repository against its
natural-language specification.

The Go source is shallowly embedded: the filesystem is a map from absolute
paths to file data, fallible operations return `Except GoErr`, and the two
external digest functions (xxh3 over content, xxh3 over the path) together
with the JSON decoder of `encoding/json` are abstract function parameters,
since the claims under verification depend only on how their results are
routed, never on the concrete digests or on the JSON grammar.
-/

namespace GoimportsRereviser

/-- Errors of the embedded Go code: `notExist` models `fs.ErrNotExist`
(matched with `errors.Is`), `jsonErr` models a `json.Unmarshal` failure on
the given record, `otherErr` any remaining I/O failure. -/
inductive GoErr where
  | notExist
  | jsonErr (record : String)
  | otherErr (msg : String)
deriving DecidableEq, Repr

/-- A file on disk: its byte content (modelled as a `String`) and its
modification time (`ModTime().UTC().UnixNano()`), as observed by `os.Stat`. -/
structure FileData where
  content : String
  modTime : Int
deriving DecidableEq, Repr

/-- The size reported by `os.Stat` is the byte length of the content. -/
def fileSize (fd : FileData) : Int := fd.content.length

/-- The filesystem: absolute path to file, `none` when the path does not
exist.  Cache files and source files live in the same filesystem. -/
def FS : Type := String → Option FileData

/-- `os.Remove`: the path no longer exists afterwards. -/
def fsRemove (fs : FS) (p : String) : FS :=
  fun q => if q = p then none else fs q

/-- The opening-brace byte tested by `readCacheEntry` (`b[0] != '{'`). -/
def lbraceChar : Char := Char.ofNat 123

/-- ASCII whitespace as trimmed by `bytes.TrimSpace`. -/
def isSpaceByte (c : Char) : Bool :=
  c = ' ' || c = '\t' || c = '\n' || c = Char.ofNat 11 || c = Char.ofNat 12 || c = '\r'

/-- `bytes.TrimSpace`: drop whitespace from both ends. -/
def trimSpace (s : String) : String :=
  String.mk (((s.data.dropWhile isSpaceByte).reverse.dropWhile isSpaceByte).reverse)

/-- `CacheEntry` from the cache subsystem: hash always recorded, size and
modification time optional (zero when absent). -/
structure CacheEntry where
  hash : String
  size : Int
  modTime : Int
deriving DecidableEq, Repr

/-- `cacheFilePath`: the cache record for `absPath` lives under `cacheDir`
at a name that is the digest of the absolute path (`hashPath`).  `hp` is the
abstract path-digest function (xxh3 of the path, rendered as hex). -/
def cacheFilePath (hp : String → String) (cacheDir absPath : String) : String :=
  cacheDir ++ "/" ++ hp absPath

/-- `readCacheEntry`, translated from the source: read the cache file
(missing file gives `fs.ErrNotExist`), trim whitespace; an empty record
yields no entry and no error; a record whose first byte is not a brace is a
legacy hash-only entry; otherwise the record is JSON-decoded by `jp`
(abstracting `json.Unmarshal` into a `CacheEntry`), a decode failure being
surfaced as an error. -/
def readCacheEntry (hp : String → String) (jp : String → Option CacheEntry)
    (fs : FS) (cacheDir absPath : String) : Except GoErr (Option CacheEntry) :=
  match fs (cacheFilePath hp cacheDir absPath) with
  | none => .error .notExist
  | some fd =>
    let b := trimSpace fd.content
    match b.data with
    | [] => .ok none
    | c :: _ =>
      if c = lbraceChar then
        match jp b with
        | none => .error (.jsonErr b)
        | some entry => .ok (some entry)
      else
        .ok (some { hash := b, size := 0, modTime := 0 })

/-- `fileMetadata`: `os.Stat` giving (size, modTime); a missing path is
`fs.ErrNotExist`. -/
def fileMetadata (fs : FS) (path : String) : Except GoErr (Int × Int) :=
  match fs path with
  | none => .error .notExist
  | some fd => .ok (fileSize fd, fd.modTime)

/-- `metadataMatches`: cached metadata versus the current stat values; a nil
entry or an entry with a zero size or zero modTime never matches. -/
def metadataMatches (entry : Option CacheEntry) (size modTime : Int) : Bool :=
  match entry with
  | none => false
  | some e =>
    if e.size = 0 ∨ e.modTime = 0 then false
    else decide (e.size = size) && decide (e.modTime = modTime)

/-- `cacheEntryForMetadata`: fall back to a hash-only entry when either
metadata component is zero. -/
def cacheEntryForMetadata (hash : String) (size modTime : Int) : CacheEntry :=
  if size = 0 ∨ modTime = 0 then { hash := hash, size := 0, modTime := 0 }
  else { hash := hash, size := size, modTime := modTime }

/-- `NewCacheEntry`: hash-only unless metadata is requested and the stat
succeeds; a vanished file degrades to hash-only rather than failing. -/
def NewCacheEntry (fs : FS) (absPath hash : String) (withMetadata : Bool) :
    Except GoErr CacheEntry :=
  if withMetadata = false then .ok { hash := hash, size := 0, modTime := 0 }
  else
    match fileMetadata fs absPath with
    | .error .notExist => .ok { hash := hash, size := 0, modTime := 0 }
    | .error e => .error e
    | .ok (size, modTime) => .ok (cacheEntryForMetadata hash size modTime)

/-- `hashFile`: digest of the current content of `path` under the abstract
content-digest function `hb` (xxh3, rendered as fixed-width hex). -/
def hashFile (hb : String → String) (fs : FS) (path : String) : Except GoErr String :=
  match fs path with
  | none => .error .notExist
  | some fd => .ok (hb fd.content)

/-- `ShouldSkipByHash`, translated from the source; the second component is
the filesystem after the call (the stale-cache removal is its only write). -/
def ShouldSkipByHash (hb hp : String → String) (jp : String → Option CacheEntry)
    (fs : FS) (cacheDir absPath : String) : Except GoErr Bool × FS :=
  match readCacheEntry hp jp fs cacheDir absPath with
  | .error .notExist => (.ok false, fs)
  | .error e => (.error e, fs)
  | .ok none => (.ok false, fs)
  | .ok (some entry) =>
    if entry.hash = "" then (.ok false, fs)
    else
      match hashFile hb fs absPath with
      | .error .notExist => (.ok true, fsRemove fs (cacheFilePath hp cacheDir absPath))
      | .error e => (.error e, fs)
      | .ok currentHash => (.ok (decide (entry.hash = currentHash)), fs)

/-- `ShouldSkipByMetadata`, translated from the source: entries without both
metadata components fall back to the hash check; otherwise the decision
compares stat size and modTime, deleting the stale record when the source
file has vanished. -/
def ShouldSkipByMetadata (hb hp : String → String) (jp : String → Option CacheEntry)
    (fs : FS) (cacheDir absPath : String) : Except GoErr Bool × FS :=
  match readCacheEntry hp jp fs cacheDir absPath with
  | .error .notExist => (.ok false, fs)
  | .error e => (.error e, fs)
  | .ok none => (.ok false, fs)
  | .ok (some entry) =>
    if entry.size = 0 ∨ entry.modTime = 0 then
      ShouldSkipByHash hb hp jp fs cacheDir absPath
    else
      match fileMetadata fs absPath with
      | .error .notExist => (.ok true, fsRemove fs (cacheFilePath hp cacheDir absPath))
      | .error e => (.error e, fs)
      | .ok (size, modTime) =>
        if metadataMatches (some entry) size modTime then (.ok true, fs)
        else (.ok false, fs)

/-- `ShouldSkip`: an empty cache directory disables the cache; otherwise
route to the preferred strategy. -/
def ShouldSkip (hb hp : String → String) (jp : String → Option CacheEntry)
    (fs : FS) (cacheDir absPath : String) (preferMetadata : Bool) :
    Except GoErr Bool × FS :=
  if cacheDir = "" then (.ok false, fs)
  else if preferMetadata then ShouldSkipByMetadata hb hp jp fs cacheDir absPath
  else ShouldSkipByHash hb hp jp fs cacheDir absPath

/-- An entry is metadata-consistent when size and modTime are both zero
(hash-only) or both populated — the invariant claimed by the spec. -/
def metaConsistent (e : CacheEntry) : Prop :=
  (e.size = 0 ∧ e.modTime = 0) ∨ (e.size ≠ 0 ∧ e.modTime ≠ 0)

instance (e : CacheEntry) : Decidable (metaConsistent e) := by
  unfold metaConsistent; infer_instance

instance {ε α : Type} [DecidableEq ε] [DecidableEq α] : DecidableEq (Except ε α) := fun a b =>
  match a, b with
  | .ok x, .ok y =>
    if h : x = y then .isTrue (by rw [h]) else .isFalse (by intro hc; cases hc; exact h rfl)
  | .error x, .error y =>
    if h : x = y then .isTrue (by rw [h]) else .isFalse (by intro hc; cases hc; exact h rfl)
  | .ok _, .error _ => .isFalse (by intro hc; cases hc)
  | .error _, .ok _ => .isFalse (by intro hc; cases hc)

/-- C2: for a stored, metadata-complete cache entry, `ShouldSkipByMetadata`
decides purely from the stored size/modTime against the current stat values
(skip exactly when both match, no filesystem write, and the decision is
independent of the file content given equal size and modTime); a stored
entry without complete metadata falls back to `ShouldSkipByHash`. -/
theorem C2_shouldSkipByMetadata_decision
    (hb hp : String → String) (jp : String → Option CacheEntry)
    (fs : FS) (cacheDir absPath : String) (fd : FileData) (e : CacheEntry)
    (hread : readCacheEntry hp jp fs cacheDir absPath = .ok (some e))
    (hfile : fs absPath = some fd) :
    ((e.size ≠ 0 ∧ e.modTime ≠ 0) →
      ShouldSkipByMetadata hb hp jp fs cacheDir absPath
        = (.ok (decide (e.size = fileSize fd) && decide (e.modTime = fd.modTime)), fs))
    ∧ ((e.size = 0 ∨ e.modTime = 0) →
      ShouldSkipByMetadata hb hp jp fs cacheDir absPath
        = ShouldSkipByHash hb hp jp fs cacheDir absPath)
    ∧ ((e.size ≠ 0 ∧ e.modTime ≠ 0) →
      ∀ (fs2 : FS) (fd2 : FileData),
        readCacheEntry hp jp fs2 cacheDir absPath = .ok (some e) →
        fs2 absPath = some fd2 →
        fileSize fd2 = fileSize fd →
        fd2.modTime = fd.modTime →
        (ShouldSkipByMetadata hb hp jp fs2 cacheDir absPath).1
          = (ShouldSkipByMetadata hb hp jp fs cacheDir absPath).1) := by
  have hmain : (e.size ≠ 0 ∧ e.modTime ≠ 0) →
      ∀ (fs3 : FS) (fd3 : FileData),
        readCacheEntry hp jp fs3 cacheDir absPath = .ok (some e) →
        fs3 absPath = some fd3 →
        ShouldSkipByMetadata hb hp jp fs3 cacheDir absPath
          = (.ok (decide (e.size = fileSize fd3) && decide (e.modTime = fd3.modTime)), fs3) := by
    intro hne fs3 fd3 hr3 hf3
    have hmm : metadataMatches (some e) (fileSize fd3) fd3.modTime
        = (decide (e.size = fileSize fd3) && decide (e.modTime = fd3.modTime)) := by
      simp only [metadataMatches]
      rw [if_neg (by tauto)]
    simp only [ShouldSkipByMetadata, hr3]
    rw [if_neg (by tauto)]
    simp only [fileMetadata, hf3]
    rw [hmm]
    cases hdec : decide (e.size = fileSize fd3) && decide (e.modTime = fd3.modTime) <;>
      simp [hdec]
  refine ⟨fun hne => hmain hne fs fd hread hfile, ?_, ?_⟩
  · intro hzero
    simp only [ShouldSkipByMetadata, hread]
    rw [if_pos hzero]
  · intro hne fs2 fd2 hr2 hf2 hsz hmt
    rw [hmain hne fs fd hread hfile, hmain hne fs2 fd2 hr2 hf2, hsz, hmt]

/-- C2 witness: a concrete legacy (hash-only) record falls back to the hash
comparison, and a concrete metadata-complete record decides by size/modTime. -/
theorem C2_shouldSkipByMetadata_decision_witness :
    readCacheEntry (fun _ => "k") (fun _ => none)
        (fun q => if q = "cd/k" then some { content := "deadbeef", modTime := 5 }
                  else if q = "f" then some { content := "xyz", modTime := 7 } else none)
        "cd" "f"
      = .ok (some { hash := "deadbeef", size := 0, modTime := 0 })
    ∧ (fun q => if q = "cd/k" then some { content := "deadbeef", modTime := 5 }
                else if q = "f" then some { content := "xyz", modTime := 7 } else none : FS) "f"
      = some { content := "xyz", modTime := 7 }
    ∧ (({ hash := "deadbeef", size := 0, modTime := 0 } : CacheEntry).size = 0
        ∨ ({ hash := "deadbeef", size := 0, modTime := 0 } : CacheEntry).modTime = 0)
    ∧ ShouldSkipByMetadata (fun s => s) (fun _ => "k") (fun _ => none)
        (fun q => if q = "cd/k" then some { content := "deadbeef", modTime := 5 }
                  else if q = "f" then some { content := "xyz", modTime := 7 } else none)
        "cd" "f"
      = ShouldSkipByHash (fun s => s) (fun _ => "k") (fun _ => none)
        (fun q => if q = "cd/k" then some { content := "deadbeef", modTime := 5 }
                  else if q = "f" then some { content := "xyz", modTime := 7 } else none)
        "cd" "f" :=
  ⟨by decide, by decide, by decide,
    (C2_shouldSkipByMetadata_decision (fun s => s) (fun _ => "k") (fun _ => none)
      _ "cd" "f" { content := "xyz", modTime := 7 }
      { hash := "deadbeef", size := 0, modTime := 0 }
      (by decide) (by decide)).2.1 (by decide)⟩

/-- C3: for a stored cache entry and an existing source file,
`ShouldSkipByHash` skips exactly when the stored digest is non-empty and
equals the recomputed digest of the current content; in particular skip=true
implies exact digest equality. -/
theorem C3_shouldSkipByHash_digest_equality
    (hb hp : String → String) (jp : String → Option CacheEntry)
    (fs : FS) (cacheDir absPath : String) (fd : FileData) (e : CacheEntry)
    (hread : readCacheEntry hp jp fs cacheDir absPath = .ok (some e))
    (hfile : fs absPath = some fd) :
    ((ShouldSkipByHash hb hp jp fs cacheDir absPath).1 = .ok true
      ↔ (e.hash ≠ "" ∧ e.hash = hb fd.content))
    ∧ (ShouldSkipByHash hb hp jp fs cacheDir absPath).2 = fs := by
  simp only [ShouldSkipByHash, hread, hashFile, hfile]
  by_cases hh : e.hash = ""
  · rw [if_pos hh]
    constructor
    · constructor
      · intro hcontra
        exact absurd hcontra (by simp)
      · rintro ⟨hne, _⟩
        exact absurd hh hne
    · rfl
  · rw [if_neg hh]
    constructor
    · constructor
      · intro hok
        refine ⟨hh, ?_⟩
        by_contra hne
        simp [hne] at hok
      · rintro ⟨_, heq⟩
        simp [heq]
    · rfl

/-- C3 witness: concrete matching digest gives skip=true, and the iff yields
the digest equality. -/
theorem C3_shouldSkipByHash_digest_equality_witness :
    readCacheEntry (fun _ => "k") (fun _ => none)
        (fun q => if q = "cd/k" then some { content := "xyz", modTime := 5 }
                  else if q = "f" then some { content := "xyz", modTime := 7 } else none)
        "cd" "f"
      = .ok (some { hash := "xyz", size := 0, modTime := 0 })
    ∧ ((ShouldSkipByHash (fun s => s) (fun _ => "k") (fun _ => none)
        (fun q => if q = "cd/k" then some { content := "xyz", modTime := 5 }
                  else if q = "f" then some { content := "xyz", modTime := 7 } else none)
        "cd" "f").1 = .ok true
      ↔ (({ hash := "xyz", size := 0, modTime := 0 } : CacheEntry).hash ≠ ""
          ∧ ({ hash := "xyz", size := 0, modTime := 0 } : CacheEntry).hash = (fun s => s) "xyz")) :=
  ⟨by decide,
    (C3_shouldSkipByHash_digest_equality (fun s => s) (fun _ => "k") (fun _ => none)
      _ "cd" "f" { content := "xyz", modTime := 7 }
      { hash := "xyz", size := 0, modTime := 0 }
      (by decide) (by decide)).1⟩

/-- C4 (amended): when the cached source file no longer exists, the skip
checks return skip=true with no error and delete the stale cache record —
provided the stored entry has complete metadata (metadata check) or a
non-empty stored hash (hash check and the hash fallback); an entry with an
empty hash and incomplete metadata instead yields skip=false. -/
theorem C4_missing_file_skip_cleanup
    (hb hp : String → String) (jp : String → Option CacheEntry)
    (fs : FS) (cacheDir absPath : String) (e : CacheEntry)
    (hread : readCacheEntry hp jp fs cacheDir absPath = .ok (some e))
    (hmiss : fs absPath = none) :
    ((e.size ≠ 0 ∧ e.modTime ≠ 0) →
      ShouldSkipByMetadata hb hp jp fs cacheDir absPath
        = (.ok true, fsRemove fs (cacheFilePath hp cacheDir absPath)))
    ∧ (e.hash ≠ "" →
      ShouldSkipByHash hb hp jp fs cacheDir absPath
        = (.ok true, fsRemove fs (cacheFilePath hp cacheDir absPath)))
    ∧ ((e.size = 0 ∨ e.modTime = 0) → e.hash ≠ "" →
      ShouldSkipByMetadata hb hp jp fs cacheDir absPath
        = (.ok true, fsRemove fs (cacheFilePath hp cacheDir absPath)))
    ∧ fsRemove fs (cacheFilePath hp cacheDir absPath) (cacheFilePath hp cacheDir absPath)
        = none := by
  have hhash : e.hash ≠ "" →
      ShouldSkipByHash hb hp jp fs cacheDir absPath
        = (.ok true, fsRemove fs (cacheFilePath hp cacheDir absPath)) := by
    intro hh
    simp only [ShouldSkipByHash, hread]
    rw [if_neg hh]
    simp only [hashFile, hmiss]
  refine ⟨?_, hhash, ?_, ?_⟩
  · intro hne
    simp only [ShouldSkipByMetadata, hread]
    rw [if_neg (by tauto)]
    simp only [fileMetadata, hmiss]
  · intro hzero hh
    simp only [ShouldSkipByMetadata, hread]
    rw [if_pos hzero]
    exact hhash hh
  · simp [fsRemove]

/-- C4 witness: a concrete legacy entry with a missing source file is
skipped and its cache record removed. -/
theorem C4_missing_file_skip_cleanup_witness :
    readCacheEntry (fun _ => "k") (fun _ => none)
        (fun q => if q = "cd/k" then some { content := "deadbeef", modTime := 5 } else none)
        "cd" "f"
      = .ok (some { hash := "deadbeef", size := 0, modTime := 0 })
    ∧ (fun q => if q = "cd/k" then some { content := "deadbeef", modTime := 5 } else none : FS) "f"
      = none
    ∧ (({ hash := "deadbeef", size := 0, modTime := 0 } : CacheEntry).hash ≠ ""
      → ShouldSkipByHash (fun s => s) (fun _ => "k") (fun _ => none)
          (fun q => if q = "cd/k" then some { content := "deadbeef", modTime := 5 } else none)
          "cd" "f"
        = (.ok true,
            fsRemove
              (fun q => if q = "cd/k" then some { content := "deadbeef", modTime := 5 } else none)
              (cacheFilePath (fun _ => "k") "cd" "f"))) :=
  ⟨by decide, by decide,
    (C4_missing_file_skip_cleanup (fun s => s) (fun _ => "k") (fun _ => none)
      _ "cd" "f" { hash := "deadbeef", size := 0, modTime := 0 }
      (by decide) (by decide)).2.1⟩

/-- The `json.Unmarshal` oracle at the record `"{}"`: the Go decoder accepts
it and yields the zero `CacheEntry` (empty hash, zero size and modTime). -/
def c4jp : String → Option CacheEntry := fun s =>
  if s = String.mk [lbraceChar, Char.ofNat 125] then
    some { hash := "", size := 0, modTime := 0 }
  else none

/-- Filesystem holding only the cache record `"{}"` for the (missing)
source file `"f"`, keyed under cache directory `"cd"`. -/
def c4fs : FS := fun q =>
  if q = "cd/k" then some { content := String.mk [lbraceChar, Char.ofNat 125], modTime := 1 }
  else none

/-- C4 counterexample: the stored record `"{}"` is a cache entry (readCacheEntry
returns it) and the source file is missing, yet both skip checks return
skip=false and leave the stale record in place — refuting the claim as
stated for every cache entry. -/
theorem C4_missing_file_skip_cleanup_counterexample :
    readCacheEntry (fun _ => "k") c4jp c4fs "cd" "f"
      = .ok (some { hash := "", size := 0, modTime := 0 })
    ∧ c4fs "f" = none
    ∧ (ShouldSkipByMetadata (fun s => s) (fun _ => "k") c4jp c4fs "cd" "f").1 = .ok false
    ∧ (ShouldSkipByHash (fun s => s) (fun _ => "k") c4jp c4fs "cd" "f").1 = .ok false
    ∧ (ShouldSkipByMetadata (fun s => s) (fun _ => "k") c4jp c4fs "cd" "f").2
        (cacheFilePath (fun _ => "k") "cd" "f") ≠ none
    ∧ (ShouldSkipByHash (fun s => s) (fun _ => "k") c4jp c4fs "cd" "f").2
        (cacheFilePath (fun _ => "k") "cd" "f") ≠ none := by
  refine ⟨by decide, by decide, by decide, by decide, by decide, by decide⟩

/-- C8 (amended): `NewCacheEntry` never yields a partial metadata state, and
`readCacheEntry` yields a non-partial entry for every legacy record and for
every JSON record whose decoded entry is itself non-partial; a handcrafted
partial JSON record, however, is returned exactly as stored. -/
theorem C8_meta_state_never_partial :
    (∀ (fs : FS) (absPath hash : String) (w : Bool) (e : CacheEntry),
      NewCacheEntry fs absPath hash w = .ok e → metaConsistent e)
    ∧ (∀ (hp : String → String) (jp : String → Option CacheEntry)
        (fs : FS) (cacheDir absPath : String) (e : CacheEntry),
      (∀ s e2, jp s = some e2 → metaConsistent e2) →
      readCacheEntry hp jp fs cacheDir absPath = .ok (some e) → metaConsistent e) := by
  constructor
  · intro fs absPath hash w e hok
    simp only [NewCacheEntry] at hok
    by_cases hw : w = false
    · rw [if_pos hw] at hok
      cases hok
      exact .inl ⟨rfl, rfl⟩
    · rw [if_neg hw] at hok
      cases hmet : fileMetadata fs absPath with
      | error err =>
        rw [hmet] at hok
        cases err with
        | notExist =>
          cases hok
          exact .inl ⟨rfl, rfl⟩
        | jsonErr r => exact absurd hok (by simp)
        | otherErr m => exact absurd hok (by simp)
      | ok sm =>
        rw [hmet] at hok
        simp only [cacheEntryForMetadata] at hok
        by_cases hz : sm.1 = 0 ∨ sm.2 = 0
        · rw [if_pos hz] at hok
          cases hok
          exact .inl ⟨rfl, rfl⟩
        · rw [if_neg hz] at hok
          cases hok
          exact .inr ⟨fun hc => hz (.inl hc), fun hc => hz (.inr hc)⟩
  · intro hp jp fs cacheDir absPath e hjp hok
    cases hfs : fs (cacheFilePath hp cacheDir absPath) with
    | none =>
      simp only [readCacheEntry, hfs] at hok
      exact absurd hok (by simp)
    | some fd =>
      cases hdata : (trimSpace fd.content).data with
      | nil =>
        simp only [readCacheEntry, hfs, hdata] at hok
        exact absurd hok (by simp)
      | cons c rest =>
        by_cases hc : c = lbraceChar
        · cases hjpv : jp (trimSpace fd.content) with
          | none =>
            simp only [readCacheEntry, hfs, hdata, if_pos hc, hjpv] at hok
            exact absurd hok (by simp)
          | some e2 =>
            simp only [readCacheEntry, hfs, hdata, if_pos hc, hjpv] at hok
            obtain rfl : e2 = e := by
              injection hok with h
              injection h
            exact hjp _ _ hjpv
        · simp only [readCacheEntry, hfs, hdata, if_neg hc] at hok
          obtain rfl : ({ hash := trimSpace fd.content, size := 0, modTime := 0 } : CacheEntry) = e := by
            injection hok with h
            injection h
          exact .inl ⟨rfl, rfl⟩

/-- C8 witness: the amended invariant evaluated at a concrete
`NewCacheEntry` call on an existing file. -/
theorem C8_meta_state_never_partial_witness :
    NewCacheEntry (fun q => if q = "f" then some { content := "xyz", modTime := 7 } else none)
        "f" "h" true
      = .ok { hash := "h", size := 3, modTime := 7 }
    ∧ metaConsistent { hash := "h", size := 3, modTime := 7 } :=
  ⟨by decide,
    C8_meta_state_never_partial.1
      (fun q => if q = "f" then some { content := "xyz", modTime := 7 } else none)
      "f" "h" true { hash := "h", size := 3, modTime := 7 } (by decide)⟩

/-- The `json.Unmarshal` oracle at a record holding only hash and size: the
Go decoder yields `ModTime` zero while `Size` is populated (`omitempty`
fields default to zero), i.e. a partial metadata state. -/
def c8record : String :=
  String.mk [lbraceChar] ++ "\"hash\":\"h\",\"size\":5" ++ String.mk [Char.ofNat 125]

/-- Oracle for `json.Unmarshal` at `c8record`, matching the Go decoder. -/
def c8jp : String → Option CacheEntry := fun s =>
  if s = c8record then some { hash := "h", size := 5, modTime := 0 } else none

/-- Filesystem storing `c8record` as the cache record for `"f"`. -/
def c8fs : FS := fun q =>
  if q = "cd/k" then some { content := c8record, modTime := 1 } else none

/-- C8 counterexample: `readCacheEntry` returns the stored record
`"{"hash":"h","size":5}"` as an entry with size populated but modTime zero —
a partial metadata state, refuting the claimed invariant. -/
theorem C8_meta_state_never_partial_counterexample :
    readCacheEntry (fun _ => "k") c8jp c8fs "cd" "f"
      = .ok (some { hash := "h", size := 5, modTime := 0 })
    ∧ ¬ metaConsistent { hash := "h", size := 5, modTime := 0 } := by
  refine ⟨by decide, by decide⟩

/-- C10: corrupt structured cache records are a hard error: a non-empty
record whose first byte after trimming is a brace but which the JSON decoder
rejects makes `readCacheEntry` — and hence both skip modes and `ShouldSkip` —
return an error rather than a cache miss; a non-empty record not starting
with a brace is read as a legacy hash-only entry; an empty record yields no
entry and no error. -/
theorem C10_cache_corruption_policy
    (hb hp : String → String) (jp : String → Option CacheEntry)
    (fs : FS) (cacheDir absPath : String) (fd : FileData)
    (hrec : fs (cacheFilePath hp cacheDir absPath) = some fd)
    (hdir : cacheDir ≠ "") :
    (∀ c rest, (trimSpace fd.content).data = c :: rest → c = lbraceChar →
      jp (trimSpace fd.content) = none →
        readCacheEntry hp jp fs cacheDir absPath = .error (.jsonErr (trimSpace fd.content))
        ∧ (ShouldSkipByHash hb hp jp fs cacheDir absPath).1
            = .error (.jsonErr (trimSpace fd.content))
        ∧ (ShouldSkipByMetadata hb hp jp fs cacheDir absPath).1
            = .error (.jsonErr (trimSpace fd.content))
        ∧ ∀ preferMetadata,
            (ShouldSkip hb hp jp fs cacheDir absPath preferMetadata).1
              = .error (.jsonErr (trimSpace fd.content)))
    ∧ (∀ c rest, (trimSpace fd.content).data = c :: rest → c ≠ lbraceChar →
        readCacheEntry hp jp fs cacheDir absPath
          = .ok (some { hash := trimSpace fd.content, size := 0, modTime := 0 }))
    ∧ ((trimSpace fd.content).data = [] →
        readCacheEntry hp jp fs cacheDir absPath = .ok none) := by
  refine ⟨?_, ?_, ?_⟩
  · intro c rest hdata hc hjp
    have hr : readCacheEntry hp jp fs cacheDir absPath
        = .error (.jsonErr (trimSpace fd.content)) := by
      simp only [readCacheEntry, hrec, hdata]
      rw [if_pos hc, hjp]
    have hsh : (ShouldSkipByHash hb hp jp fs cacheDir absPath).1
        = .error (.jsonErr (trimSpace fd.content)) := by
      simp only [ShouldSkipByHash, hr]
    have hsm : (ShouldSkipByMetadata hb hp jp fs cacheDir absPath).1
        = .error (.jsonErr (trimSpace fd.content)) := by
      simp only [ShouldSkipByMetadata, hr]
    refine ⟨hr, hsh, hsm, ?_⟩
    intro pm
    simp only [ShouldSkip]
    rw [if_neg hdir]
    cases pm
    · simpa using hsh
    · simpa using hsm
  · intro c rest hdata hc
    simp only [readCacheEntry, hrec, hdata]
    rw [if_neg hc]
  · intro hdata
    simp only [readCacheEntry, hrec, hdata]

/-- C10 witness: a concrete corrupt record (opening brace, decoder rejects)
makes every skip entry point error out. -/
theorem C10_cache_corruption_policy_witness :
    (fun q => if q = "cd/k"
        then some { content := String.mk [lbraceChar] ++ "oops", modTime := 1 }
        else none : FS) (cacheFilePath (fun _ => "k") "cd" "f")
      = some { content := String.mk [lbraceChar] ++ "oops", modTime := 1 }
    ∧ ("cd" : String) ≠ ""
    ∧ readCacheEntry (fun _ => "k") (fun _ => none)
        (fun q => if q = "cd/k"
          then some { content := String.mk [lbraceChar] ++ "oops", modTime := 1 }
          else none)
        "cd" "f"
      = .error (.jsonErr (trimSpace
          ({ content := String.mk [lbraceChar] ++ "oops", modTime := 1 } : FileData).content)) :=
  ⟨by decide, by decide,
    ((C10_cache_corruption_policy (fun s => s) (fun _ => "k") (fun _ => none)
      _ "cd" "f" { content := String.mk [lbraceChar] ++ "oops", modTime := 1 }
      (by decide) (by decide)).1
      lbraceChar "oops".data (by decide) rfl rfl).1⟩

/-! ## Syntax analyzer: `UsedImports` of pkg/astutil, over a shallow Go AST -/

/-- An import spec of the Go AST: optional name (`_`, `.`, or an alias) and
the raw quoted path literal (`spec.Path.Value`). -/
structure ImportSpecA where
  name : Option String
  pathValue : String
deriving DecidableEq, Repr

/-- `strings.Trim(s, "\"")`: drop quote characters from both ends. -/
def trimQuotes (s : String) : String :=
  String.mk (((s.data.dropWhile (fun c => c = '"')).reverse.dropWhile (fun c => c = '"')).reverse)

/-- Package name inferred from the path: the part after the last slash, the
whole path when it has no slash (`strings.LastIndex` branch of the source). -/
def lastSegAfterSlash (s : String) : String :=
  String.mk ((s.data.reverse.takeWhile (fun c => ¬ (c = '/'))).reverse)

/-- Shallow Go expression tree: identifiers (with `bound = true` modelling a
non-nil `Obj`, i.e. a locally bound name), selector expressions `x.sel`, and
generic interior nodes; `ast.Inspect` visits every node. -/
inductive Node where
  | ident (name : String) (bound : Bool)
  | selector (x : Node) (selName : String)
  | branch (left right : Node)
  | leaf
deriving DecidableEq, Repr

/-- A parsed source unit: its import list and its body. -/
structure FileA where
  imports : List ImportSpecA
  body : Node
deriving DecidableEq, Repr

/-- The first pass of `UsedImports`: one fold over the import list building
the used map (blank and dot imports marked used immediately) and the
local-name-to-path table (later puts shadow earlier ones, as in a Go map;
the tables are association lists whose head is the newest entry). -/
def usageInit (packageImports : List (String × String)) (imports : List ImportSpecA) :
    List (String × Bool) × List (String × String) :=
  imports.foldl
    (fun acc spec =>
      let path := trimQuotes spec.pathValue
      match spec.name with
      | some n =>
        if n = "_" ∨ n = "." then ((path, true) :: acc.1, acc.2)
        else (acc.1, (n, path) :: acc.2)
      | none =>
        let pkgName0 := (packageImports.lookup path).getD ""
        let pkgName := if pkgName0 = "" then lastSegAfterSlash path else pkgName0
        (acc.1, (pkgName, path) :: acc.2))
    ([], [])

/-- The `ast.Inspect` pass of `UsedImports`: every selector expression whose
operand is an unbound identifier found in the name table marks its path
used. -/
def inspectMark (aliasToPath : List (String × String)) :
    Node → List (String × Bool) → List (String × Bool)
  | .ident _ _, used => used
  | .selector x _, used =>
    let used2 :=
      match x with
      | .ident n false =>
        match aliasToPath.lookup n with
        | some p => (p, true) :: used
        | none => used
      | _ => used
    inspectMark aliasToPath x used2
  | .branch l r, used => inspectMark aliasToPath r (inspectMark aliasToPath l used)
  | .leaf, used => used

/-- `UsedImports`, translated from pkg/astutil: build the tables, walk the
body, return the path-to-used map (absent paths default to unused). -/
def UsedImports (f : FileA) (packageImports : List (String × String)) :
    List (String × Bool) :=
  let tables := usageInit packageImports f.imports
  inspectMark tables.2 f.body tables.1

/-- Blank (`_`) or dot (`.`) import. -/
def isBlankOrDot (s : ImportSpecA) : Bool :=
  s.name = some "_" || s.name = some "."

/-- Modelled from the spec: step (1) of the Import Classifier & Orderer
("optionally drop unused non-blank/non-dot imports") — the `SourceFile.Fix`
orchestrator is absent from src (only its tests are present), so the
unused-import removal it performs is taken from the spec's words. -/
def removeUnusedImports (removeUnused : Bool) (imports : List ImportSpecA)
    (used : List (String × Bool)) : List ImportSpecA :=
  if removeUnused then
    imports.filter
      (fun s => isBlankOrDot s || ((used.lookup (trimQuotes s.pathValue)).getD false))
  else imports

theorem lookup_cons_true_preserved (l : List (String × Bool)) (p q : String)
    (h : l.lookup p = some true) : ((q, true) :: l).lookup p = some true := by
  by_cases hqp : p = q
  · simp [List.lookup, hqp]
  · have hbeq : (p == q) = false := by
      simpa [beq_iff_eq] using hqp
    simp [List.lookup, hbeq, h]

theorem inspectMark_preserves (aliasToPath : List (String × String)) (t : Node)
    (used : List (String × Bool)) (p : String)
    (h : used.lookup p = some true) :
    (inspectMark aliasToPath t used).lookup p = some true := by
  induction t generalizing used with
  | ident n b => simpa [inspectMark] using h
  | selector x selName ih =>
    simp only [inspectMark]
    apply ih
    cases x with
    | ident n b =>
      cases b with
      | false =>
        cases hl : aliasToPath.lookup n with
        | none => simpa [hl] using h
        | some q => simpa [hl] using lookup_cons_true_preserved _ _ _ h
      | true => simpa using h
    | selector y s2 => simpa using h
    | branch l r => simpa using h
    | leaf => simpa using h
  | branch l r ihl ihr =>
    simp only [inspectMark]
    exact ihr _ (ihl _ h)
  | leaf => simpa [inspectMark] using h

theorem usageInit_blankdot (packageImports : List (String × String))
    (imports : List ImportSpecA) (s : ImportSpecA) (acc : List (String × Bool) × List (String × String))
    (h : (s ∈ imports ∧ (s.name = some "_" ∨ s.name = some "."))
         ∨ acc.1.lookup (trimQuotes s.pathValue) = some true) :
    ((imports.foldl
      (fun acc spec =>
        let path := trimQuotes spec.pathValue
        match spec.name with
        | some n =>
          if n = "_" ∨ n = "." then ((path, true) :: acc.1, acc.2)
          else (acc.1, (n, path) :: acc.2)
        | none =>
          let pkgName0 := (packageImports.lookup path).getD ""
          let pkgName := if pkgName0 = "" then lastSegAfterSlash path else pkgName0
          (acc.1, (pkgName, path) :: acc.2))
      acc).1).lookup (trimQuotes s.pathValue) = some true := by
  induction imports generalizing acc with
  | nil =>
    rcases h with ⟨hmem, _⟩ | hacc
    · cases hmem
    · simpa using hacc
  | cons x rest ih =>
    simp only [List.foldl_cons]
    apply ih
    rcases h with ⟨hmem, hbd⟩ | hacc
    · rcases List.mem_cons.mp hmem with rfl | hmem2
      · right
        rcases hbd with hbd | hbd <;>
          simp [hbd, List.lookup]
      · left; exact ⟨hmem2, hbd⟩
    · right
      cases hn : x.name with
      | none => simpa [hn] using hacc
      | some n =>
        by_cases hb : n = "_" ∨ n = "."
        · simp only [hn]
          rw [if_pos hb]
          exact lookup_cons_true_preserved _ _ _ hacc
        · simp only [hn]
          rw [if_neg hb]
          exact hacc

/-- C5: every blank and every dot import is marked used by `UsedImports`
regardless of the body and table, and the unused-import removal step always
retains it even when removal is enabled. -/
theorem C5_blank_dot_always_used_and_retained
    (f : FileA) (packageImports : List (String × String)) (s : ImportSpecA)
    (hmem : s ∈ f.imports) (hbd : s.name = some "_" ∨ s.name = some ".") :
    (UsedImports f packageImports).lookup (trimQuotes s.pathValue) = some true
    ∧ ∀ (removeUnused : Bool) (used : List (String × Bool)),
        s ∈ removeUnusedImports removeUnused f.imports used := by
  constructor
  · unfold UsedImports
    apply inspectMark_preserves
    exact usageInit_blankdot packageImports f.imports s ([], []) (.inl ⟨hmem, hbd⟩)
  · intro removeUnused used
    unfold removeUnusedImports
    by_cases hr : removeUnused
    · rw [if_pos hr]
      apply List.mem_filter.mpr
      refine ⟨hmem, ?_⟩
      rcases hbd with hbd | hbd <;> simp [isBlankOrDot, hbd]
    · rw [if_neg hr]
      exact hmem

/-- C5 witness: concrete blank import with an empty body and empty table is
marked used and survives removal. -/
theorem C5_blank_dot_always_used_and_retained_witness :
    (⟨some "_", "\"a/b\""⟩ : ImportSpecA) ∈ ({ imports := [⟨some "_", "\"a/b\""⟩], body := .leaf } : FileA).imports
    ∧ ((some "_" : Option String) = some "_" ∨ (some "_" : Option String) = some ".")
    ∧ (UsedImports { imports := [⟨some "_", "\"a/b\""⟩], body := .leaf } []).lookup
        (trimQuotes "\"a/b\"") = some true
    ∧ (⟨some "_", "\"a/b\""⟩ : ImportSpecA)
        ∈ removeUnusedImports true [⟨some "_", "\"a/b\""⟩] [] := by
  refine ⟨by decide, by decide, ?_, ?_⟩
  · exact (C5_blank_dot_always_used_and_retained
      { imports := [⟨some "_", "\"a/b\""⟩], body := .leaf } [] ⟨some "_", "\"a/b\""⟩
      (by decide) (by decide)).1
  · exact (C5_blank_dot_always_used_and_retained
      { imports := [⟨some "_", "\"a/b\""⟩], body := .leaf } [] ⟨some "_", "\"a/b\""⟩
      (by decide) (by decide)).2 true []

/-! ## Directory walker: error aggregation (reviser/dir.go, `walk` and `Fix`) -/

/-- One submitted per-file task, as built by `walk`: run the fix; on error
report it, otherwise run the callback and report its error; `none` when the
file processed cleanly. -/
def taskOutcome {E R : Type} (fix : String → Except E R)
    (callback : String → R → Except E Unit) (path : String) : Option E :=
  match fix path with
  | .error e => some e
  | .ok r =>
    match callback path r with
    | .error e => some e
    | .ok _ => none

/-- The first-error-wins update guarded by `errMu`:
`if *processingErr == nil { *processingErr = err }`. -/
def recordErr {E : Type} (acc newErr : Option E) : Option E :=
  match acc with
  | some e => some e
  | none => newErr

/-- The walk over all submitted files: every task runs (regardless of
previous errors) and the first error is retained; the log records, per file,
the result its own fix produced. -/
def walkRun {E R : Type} (fix : String → Except E R)
    (callback : String → R → Except E Unit) (files : List String) :
    Option E × List (String × Except E R) :=
  files.foldl
    (fun acc path =>
      (recordErr acc.1 (taskOutcome fix callback path), acc.2 ++ [(path, fix path)]))
    (none, [])

/-- The first `some` among the per-task outcomes, in task order. -/
def firstErrOf {E : Type} (outs : List (Option E)) : Option E :=
  (outs.filterMap id).head?

theorem firstErrOf_cons {E : Type} (o : Option E) (l : List (Option E)) :
    firstErrOf (o :: l) = recordErr o (firstErrOf l) := by
  cases o <;> simp [firstErrOf, recordErr]

theorem recordErr_assoc {E : Type} (a b c : Option E) :
    recordErr (recordErr a b) c = recordErr a (recordErr b c) := by
  cases a <;> cases b <;> simp [recordErr]

theorem walkRun_foldl_characterization {E R : Type} (fix : String → Except E R)
    (callback : String → R → Except E Unit) (files : List String)
    (acc : Option E × List (String × Except E R)) :
    files.foldl
      (fun acc path =>
        (recordErr acc.1 (taskOutcome fix callback path), acc.2 ++ [(path, fix path)]))
      acc
    = (recordErr acc.1 (firstErrOf (files.map (taskOutcome fix callback))),
       acc.2 ++ files.map (fun p => (p, fix p))) := by
  induction files generalizing acc with
  | nil => cases acc with
    | mk a b => simp [firstErrOf, recordErr]; cases a <;> simp [recordErr]
  | cons f rest ih =>
    simp only [List.foldl_cons, ih, List.map_cons, firstErrOf_cons, recordErr_assoc,
      List.append_assoc, List.cons_append, List.nil_append]

/-- C6: the retained error is the first error among all per-file tasks in
processing order, and every submitted file is processed with its own result,
unaffected by errors in other files. -/
theorem C6_first_error_retained_all_processed {E R : Type}
    (fix : String → Except E R) (callback : String → R → Except E Unit)
    (files : List String) :
    (walkRun fix callback files).1 = firstErrOf (files.map (taskOutcome fix callback))
    ∧ (walkRun fix callback files).2 = files.map (fun p => (p, fix p)) := by
  unfold walkRun
  rw [walkRun_foldl_characterization]
  exact ⟨rfl, by simp⟩

/-! ## Directory walker: adaptive inline-vs-pooled submission (`makeSubmitter`) -/

/-- The submitter's mutable state: whether an external pool was supplied,
whether a pool currently exists, whether this submitter created it (and its
size), and the atomic submission counter. -/
structure Submitter where
  providedPool : Bool
  hasPool : Bool
  poolCreated : Bool
  poolSize : Nat
  fileCount : Nat
deriving DecidableEq, Repr

/-- Where a submitted task executes. -/
inductive Route where
  | inline
  | pooled
deriving DecidableEq, Repr

/-- `threshold <= 0` falls back to `defaultParallelThreshold`. -/
def defaultParallelThreshold : Nat := 8

/-- Normalization at the top of `makeSubmitter`. -/
def normThreshold (t : Int) : Nat :=
  if t ≤ 0 then defaultParallelThreshold else t.toNat

/-- Initial submitter state: an externally provided pool is already present. -/
def initSubmitter (provided : Bool) : Submitter :=
  { providedPool := provided, hasPool := provided, poolCreated := false,
    poolSize := 0, fileCount := 0 }

/-- One `submit` call, translated from `makeSubmitter`: an existing pool
takes the task; otherwise the counter is bumped and the task runs inline
while the count stays within the threshold (or a pool can never be created);
past the threshold a pool of size `GOMAXPROCS*2` is created lazily and takes
the task. -/
def submitStep (maxProcs threshold : Nat) (st : Submitter) : Submitter × Route :=
  if st.hasPool then (st, .pooled)
  else
    let count := st.fileCount + 1
    if st.providedPool = true ∨ count ≤ threshold then
      ({ st with fileCount := count }, .inline)
    else
      ({ st with hasPool := true, poolCreated := true,
                 poolSize := maxProcs * 2, fileCount := count }, .pooled)

/-- The submission sequence: apply `submitStep` to each task in order,
logging each task with the route it took. -/
def runSubmits {α : Type} (maxProcs threshold : Nat) (st : Submitter) :
    List α → Submitter × List (α × Route)
  | [] => (st, [])
  | t :: rest =>
    let step := submitStep maxProcs threshold st
    let tail := runSubmits maxProcs threshold step.1 rest
    (tail.1, (t, step.2) :: tail.2)

/-- The routes the spec describes for the no-external-pool case: the task at
0-based position `k` runs inline exactly while `k` is below the threshold. -/
def expectedRoutes {α : Type} (threshold : Nat) : Nat → List α → List (α × Route)
  | _, [] => []
  | k, t :: rest =>
    (t, if k < threshold then .inline else .pooled) :: expectedRoutes threshold (k + 1) rest

/-- After `wait`: the inline tasks already ran on the traversal thread and
the pool is drained, so every submitted task has completed. -/
def executedAfterWait {α : Type} (rs : List (α × Route)) : List α :=
  (rs.filter (fun p => decide (p.2 = Route.inline))).map Prod.fst
    ++ (rs.filter (fun p => decide (p.2 = Route.pooled))).map Prod.fst

/-- The submitter state after `k` submissions without an external pool. -/
def stateAfterInline (maxProcs threshold k : Nat) : Submitter :=
  if k ≤ threshold then
    { providedPool := false, hasPool := false, poolCreated := false,
      poolSize := 0, fileCount := k }
  else
    { providedPool := false, hasPool := true, poolCreated := true,
      poolSize := maxProcs * 2, fileCount := threshold + 1 }

theorem submitStep_stateAfterInline (maxProcs threshold k : Nat) :
    submitStep maxProcs threshold (stateAfterInline maxProcs threshold k)
      = (stateAfterInline maxProcs threshold (k + 1),
         if k < threshold then .inline else .pooled) := by
  by_cases hk : k ≤ threshold
  · by_cases hk2 : k + 1 ≤ threshold
    · have hlt : k < threshold := by omega
      simp [stateAfterInline, submitStep, hk, hk2, hlt]
    · have hlt : ¬ k < threshold := by omega
      have hkeq : k = threshold := by omega
      simp [stateAfterInline, submitStep, hk, hk2, hlt, hkeq]
  · have hlt : ¬ k < threshold := by omega
    have hk2 : ¬ k + 1 ≤ threshold := by omega
    simp [stateAfterInline, submitStep, hk, hk2, hlt]

theorem runSubmits_stateAfterInline {α : Type} (maxProcs threshold : Nat)
    (tasks : List α) : ∀ k : Nat,
    runSubmits maxProcs threshold (stateAfterInline maxProcs threshold k) tasks
      = (stateAfterInline maxProcs threshold (k + tasks.length),
         expectedRoutes threshold k tasks) := by
  induction tasks with
  | nil =>
    intro k
    simp [runSubmits, expectedRoutes]
  | cons t rest ih =>
    intro k
    have harith : k + 1 + rest.length = k + (rest.length + 1) := by omega
    simp [runSubmits, submitStep_stateAfterInline, ih (k + 1), expectedRoutes, harith]

theorem runSubmits_provided {α : Type} (maxProcs threshold : Nat) (tasks : List α) :
    runSubmits maxProcs threshold (initSubmitter true) tasks
      = (initSubmitter true, tasks.map (fun t => (t, Route.pooled))) := by
  induction tasks with
  | nil => simp [runSubmits]
  | cons t rest ih =>
    have hstep : submitStep maxProcs threshold (initSubmitter true)
        = (initSubmitter true, .pooled) := by
      simp [submitStep, initSubmitter]
    simp [runSubmits, hstep, ih]

theorem expectedRoutes_map_fst {α : Type} (threshold : Nat) (tasks : List α) :
    ∀ k : Nat, (expectedRoutes threshold k tasks).map Prod.fst = tasks := by
  induction tasks with
  | nil => intro k; simp [expectedRoutes]
  | cons t rest ih => intro k; simp [expectedRoutes, ih (k + 1)]

theorem executedAfterWait_perm {α : Type} (rs : List (α × Route)) :
    (executedAfterWait rs).Perm (rs.map Prod.fst) := by
  unfold executedAfterWait
  have hfil : rs.filter (fun p => decide (p.2 = Route.pooled))
      = rs.filter (fun p => ! decide (p.2 = Route.inline)) := by
    apply List.filter_congr
    intro p _
    cases hp : p.2 <;> simp [hp]
  rw [hfil, ← List.map_append]
  exact (List.filter_append_perm _ rs).map Prod.fst

/-- C7: with an external pool every submission routes through it (the state
never changes and no pool is created); without one, the task at 0-based
position k runs inline exactly while k is below the (normalized) threshold,
a pool sized `GOMAXPROCS*2` is created lazily exactly when the submission
count exceeds the threshold and all further submissions route through it
(earlier inline routes are fixed in the log); after `wait` every submitted
task — inline or pooled — has executed; a non-positive configured threshold
normalizes to the default 8. -/
theorem C7_submitter_scheduling {α : Type} (maxProcs threshold : Nat) (tasks : List α) :
    (runSubmits maxProcs threshold (initSubmitter true) tasks
      = (initSubmitter true, tasks.map (fun t => (t, Route.pooled))))
    ∧ (runSubmits maxProcs threshold (initSubmitter false) tasks).2
        = expectedRoutes threshold 0 tasks
    ∧ (runSubmits maxProcs threshold (initSubmitter false) tasks).1.poolCreated
        = decide (threshold < tasks.length)
    ∧ (threshold < tasks.length →
        (runSubmits maxProcs threshold (initSubmitter false) tasks).1.poolSize
          = maxProcs * 2)
    ∧ (executedAfterWait (runSubmits maxProcs threshold (initSubmitter false) tasks).2).Perm tasks
    ∧ (executedAfterWait (runSubmits maxProcs threshold (initSubmitter true) tasks).2).Perm tasks
    ∧ (∀ t : Int, t ≤ 0 → normThreshold t = defaultParallelThreshold)
    ∧ defaultParallelThreshold = 8 := by
  have hinit : initSubmitter false = stateAfterInline maxProcs threshold 0 := by
    simp [initSubmitter, stateAfterInline]
  have hrun := runSubmits_stateAfterInline maxProcs threshold tasks 0
  refine ⟨runSubmits_provided maxProcs threshold tasks, ?_, ?_, ?_, ?_, ?_, ?_, rfl⟩
  · rw [hinit, hrun]
  · rw [hinit, hrun]
    by_cases hlen : threshold < tasks.length
    · have hle : ¬ tasks.length ≤ threshold := by omega
      simp [stateAfterInline, hle, hlen]
    · have hle : tasks.length ≤ threshold := by omega
      simp [stateAfterInline, hle, hlen]
  · intro hlen
    rw [hinit, hrun]
    have hle : ¬ tasks.length ≤ threshold := by omega
    simp [stateAfterInline, hle]
  · rw [hinit, hrun]
    have hperm := executedAfterWait_perm (expectedRoutes threshold 0 tasks)
    rwa [expectedRoutes_map_fst threshold tasks 0] at hperm
  · rw [runSubmits_provided]
    have hperm := executedAfterWait_perm (tasks.map (fun t => (t, Route.pooled)))
    have hmap : List.map Prod.fst (tasks.map (fun t => (t, Route.pooled))) = tasks := by
      have hcomp : (Prod.fst ∘ fun t : α => (t, Route.pooled)) = id := rfl
      rw [List.map_map, hcomp, List.map_id]
    rw [hmap] at hperm
    exact hperm
  · intro t ht
    simp [normThreshold, ht]

/-- C7 witness: four tasks, threshold two — the first two run inline, the
rest go to the lazily created pool of size `GOMAXPROCS*2`. -/
theorem C7_submitter_scheduling_witness :
    (runSubmits 4 2 (initSubmitter false) [10, 20, 30, 40]).2
      = [(10, Route.inline), (20, Route.inline), (30, Route.pooled), (40, Route.pooled)]
    ∧ (runSubmits 4 2 (initSubmitter false) [10, 20, 30, 40]).1.poolCreated = true
    ∧ (runSubmits 4 2 (initSubmitter false) [10, 20, 30, 40]).1.poolSize = 8 := by
  have h := C7_submitter_scheduling (α := Nat) 4 2 [10, 20, 30, 40]
  refine ⟨?_, ?_, ?_⟩
  · rw [h.2.1]; decide
  · rw [h.2.2.1]; decide
  · exact h.2.2.2.1 (by decide)

/-- C6 witness: with a failing middle file, the first error is retained and
all three files still have their own results. -/
theorem C6_first_error_retained_all_processed_witness :
    (walkRun (fun p => if p = "b" then Except.error "boom" else Except.ok p.length)
        (fun _ _ => Except.ok ()) ["a", "b", "c"]).1 = some "boom"
    ∧ (walkRun (fun p => if p = "b" then Except.error "boom" else Except.ok p.length)
        (fun _ _ => Except.ok ()) ["a", "b", "c"]).2
      = [("a", Except.ok 1), ("b", Except.error "boom"), ("c", Except.ok 1)] := by
  have h := C6_first_error_retained_all_processed
    (fun p => if p = "b" then Except.error "boom" else Except.ok p.length)
    (fun _ _ => Except.ok ()) ["a", "b", "c"]
  exact ⟨by rw [h.1]; decide, by rw [h.2]; decide⟩

/-! ## Dependency loader: single-flight cache for `LoadPackageDependencies`

Modelled from the spec: the single-flight wrapper itself
(`loadPackageDependenciesFunc`, the per-key in-flight bookkeeping, and
`ClearPackageDepsCache`) is absent from src — only its test exercises it —
so the per-key protocol is embedded from the spec's words: concurrent
callers of one (directory, buildTag) key collapse into a single underlying
load whose result is broadcast to all waiters; a success is cached, a
failure leaves the key empty so a later call retries. -/

/-- Per-key state of the single-flight cache: no result and no in-flight
load, a load in flight with the callers waiting for it, or a cached
successful result. -/
inductive KeyState (V : Type) where
  | absent
  | inflight (waiters : List Nat)
  | done (v : V)
deriving DecidableEq, Repr

/-- A run of the protocol for one key: its state, the results delivered to
callers so far, and the number of underlying load invocations. -/
structure SFRun (V E : Type) where
  key : KeyState V
  delivered : List (Nat × Except E V)
  loads : Nat
deriving DecidableEq, Repr

/-- Events at one key: a caller invokes `LoadPackageDependencies`, or the
in-flight underlying load finishes (successfully or not). -/
inductive SFEv (V E : Type) where
  | call (c : Nat)
  | finishOk (v : V)
  | finishErr (e : E)
deriving DecidableEq, Repr

/-- One protocol step.  A call on an absent key starts the (unique)
underlying load; a call on an in-flight key just joins the waiters; a call
on a completed key is served from the cache immediately.  A finished load
broadcasts its result to every waiter; success is cached (`done`), failure
resets the key to `absent` so the next call retries.  Finish events without
an in-flight load are impossible (`none`). -/
def sfStep {V E : Type} (st : SFRun V E) : SFEv V E → Option (SFRun V E)
  | .call c =>
    match st.key with
    | .absent =>
      some { key := .inflight [c], delivered := st.delivered, loads := st.loads + 1 }
    | .inflight ws =>
      some { st with key := .inflight (ws ++ [c]) }
    | .done v =>
      some { st with delivered := st.delivered ++ [(c, .ok v)] }
  | .finishOk v =>
    match st.key with
    | .inflight ws =>
      some { key := .done v,
             delivered := st.delivered ++ ws.map (fun c => (c, .ok v)),
             loads := st.loads }
    | _ => none
  | .finishErr e =>
    match st.key with
    | .inflight ws =>
      some { key := .absent,
             delivered := st.delivered ++ ws.map (fun c => (c, .error e)),
             loads := st.loads }
    | _ => none

/-- Run a sequence of events from a state; `none` when some event is
impossible. -/
def sfRun {V E : Type} (st : SFRun V E) : List (SFEv V E) → Option (SFRun V E)
  | [] => some st
  | ev :: rest =>
    match sfStep st ev with
    | none => none
    | some st2 => sfRun st2 rest

/-- The initial state of a key: nothing cached, nothing in flight. -/
def sfInit (V E : Type) : SFRun V E :=
  { key := .absent, delivered := [], loads := 0 }

theorem sfRun_append {V E : Type} (l1 l2 : List (SFEv V E)) :
    ∀ st : SFRun V E,
    sfRun st (l1 ++ l2)
      = match sfRun st l1 with
        | none => none
        | some st2 => sfRun st2 l2 := by
  induction l1 with
  | nil => intro st; simp [sfRun]
  | cons ev rest ih =>
    intro st
    simp only [List.cons_append, sfRun]
    cases sfStep st ev with
    | none => rfl
    | some st2 => exact ih st2

theorem sfRun_calls_inflight {V E : Type} (cs : List Nat) :
    ∀ (ws : List Nat) (d : List (Nat × Except E V)) (n : Nat),
    sfRun { key := .inflight ws, delivered := d, loads := n } (cs.map .call)
      = some { key := .inflight (ws ++ cs), delivered := d, loads := n } := by
  induction cs with
  | nil => intro ws d n; simp [sfRun]
  | cons c rest ih =>
    intro ws d n
    have harr : ws ++ [c] ++ rest = ws ++ (c :: rest) := by simp
    simp [sfRun, sfStep, ih (ws ++ [c]) d n, harr]

/-- C1 (single-flight, modelled from the spec): a burst of N concurrent
callers followed by a successful load completion invokes the underlying
load exactly once, delivers the identical successful result to all N
callers, and caches it; from the cached state a later call is served the
same result with no further load; after a failed load nothing is cached —
every waiter receives the error, the key is absent again, and the next call
starts a fresh load. -/
theorem C1_single_flight {V E : Type} (cs : List Nat) (c2 : Nat) (v : V) (e : E)
    (hne : cs ≠ []) :
    (sfRun (sfInit V E) (cs.map .call ++ [.finishOk v])
        = some { key := .done v, delivered := cs.map (fun c => (c, .ok v)), loads := 1 })
    ∧ (sfStep ({ key := .done v, delivered := cs.map (fun c => (c, .ok v)), loads := 1 } :
            SFRun V E)
          (.call c2)
        = some { key := .done v,
                 delivered := cs.map (fun c => (c, .ok v)) ++ [(c2, .ok v)],
                 loads := 1 })
    ∧ (sfRun (sfInit V E) (cs.map .call ++ [.finishErr e])
        = some { key := .absent, delivered := cs.map (fun c => (c, .error e)), loads := 1 })
    ∧ (sfStep ({ key := .absent, delivered := cs.map (fun c => (c, .error e)), loads := 1 } :
            SFRun V E)
          (.call c2)
        = some { key := .inflight [c2],
                 delivered := cs.map (fun c => (c, .error e)),
                 loads := 2 }) := by
  obtain ⟨c1, rest, rfl⟩ : ∃ c1 rest, cs = c1 :: rest := by
    cases cs with
    | nil => exact absurd rfl hne
    | cons a l => exact ⟨a, l, rfl⟩
  have hcalls := sfRun_calls_inflight (V := V) (E := E) rest [c1] [] 1
  refine ⟨?_, by simp [sfStep], ?_, by simp [sfStep]⟩
  · have hrun : sfRun (sfInit V E) ((c1 :: rest).map .call)
        = some { key := .inflight (c1 :: rest), delivered := [], loads := 1 } := by
      simpa [sfRun, sfStep, sfInit] using hcalls
    calc sfRun (sfInit V E) ((c1 :: rest).map .call ++ [.finishOk v])
        = sfRun { key := .inflight (c1 :: rest), delivered := [], loads := 1 }
            [.finishOk v] := by
          rw [sfRun_append, hrun]
      _ = some { key := .done v, delivered := (c1 :: rest).map (fun c => (c, .ok v)),
                 loads := 1 } := by
          simp [sfRun, sfStep]
  · have hrun : sfRun (sfInit V E) ((c1 :: rest).map .call)
        = some { key := .inflight (c1 :: rest), delivered := [], loads := 1 } := by
      simpa [sfRun, sfStep, sfInit] using hcalls
    calc sfRun (sfInit V E) ((c1 :: rest).map .call ++ [.finishErr e])
        = sfRun { key := .inflight (c1 :: rest), delivered := [], loads := 1 }
            [.finishErr e] := by
          rw [sfRun_append, hrun]
      _ = some { key := .absent, delivered := (c1 :: rest).map (fun c => (c, .error e)),
                 loads := 1 } := by
          simp [sfRun, sfStep]

/-- C1 witness: three concurrent callers, one load, identical results; then
a cached call; a failing burst retries on the next call. -/
theorem C1_single_flight_witness :
    ([0, 1, 2] : List Nat) ≠ []
    ∧ sfRun (sfInit Nat String) ([0, 1, 2].map .call ++ [.finishOk 7])
        = some { key := .done 7,
                 delivered := [(0, .ok 7), (1, .ok 7), (2, .ok 7)], loads := 1 }
    ∧ sfRun (sfInit Nat String) ([0, 1, 2].map .call ++ [.finishErr "load failed"])
        = some { key := .absent,
                 delivered := [(0, .error "load failed"), (1, .error "load failed"),
                               (2, .error "load failed")], loads := 1 } := by
  have h := C1_single_flight (V := Nat) (E := String) [0, 1, 2] 9 7 "load failed"
    (by decide)
  exact ⟨by decide, h.1, h.2.2.1⟩

/-! ## Sorting infrastructure for the import orderer

Insertion sort under a boolean comparator; only totality of the comparator
is needed for the sortedness and fixpoint lemmas used below. -/

/-- Insert `x` into `l` before the first element not below it. -/
def insertSorted {α : Type} (le : α → α → Bool) (x : α) : List α → List α
  | [] => [x]
  | y :: l => if le x y then x :: y :: l else y :: insertSorted le x l

/-- Insertion sort by the comparator `le`. -/
def sortByCmp {α : Type} (le : α → α → Bool) : List α → List α
  | [] => []
  | x :: l => insertSorted le x (sortByCmp le l)

/-- Adjacent-pairs sortedness under the comparator. -/
def cmpSorted {α : Type} (le : α → α → Bool) (l : List α) : Prop :=
  List.Chain' (fun a b => le a b = true) l

theorem insertSorted_perm {α : Type} (le : α → α → Bool) (x : α) :
    ∀ l : List α, (insertSorted le x l).Perm (x :: l) := by
  intro l
  induction l with
  | nil => simp [insertSorted]
  | cons y t ih =>
    by_cases hxy : le x y = true
    · simp [insertSorted, hxy]
    · simp only [insertSorted, if_neg hxy]
      exact (ih.cons y).trans (List.Perm.swap x y t)

theorem sortByCmp_perm {α : Type} (le : α → α → Bool) :
    ∀ l : List α, (sortByCmp le l).Perm l := by
  intro l
  induction l with
  | nil => simp [sortByCmp]
  | cons x t ih =>
    exact (insertSorted_perm le x (sortByCmp le t)).trans (ih.cons x)

theorem mem_sortByCmp {α : Type} (le : α → α → Bool) (l : List α) (y : α) :
    y ∈ sortByCmp le l ↔ y ∈ l :=
  (sortByCmp_perm le l).mem_iff

theorem insertSorted_headOpt {α : Type} (le : α → α → Bool) (x : α) (l : List α) :
    (insertSorted le x l).head? = some x ∨ (insertSorted le x l).head? = l.head? := by
  cases l with
  | nil => left; rfl
  | cons y t =>
    by_cases hxy : le x y = true
    · left; simp [insertSorted, hxy]
    · right; simp [insertSorted, hxy]

theorem cmpSorted_insertSorted {α : Type} (le : α → α → Bool)
    (htot : ∀ a b, le a b = true ∨ le b a = true) (x : α) :
    ∀ l : List α, cmpSorted le l → cmpSorted le (insertSorted le x l) := by
  intro l
  induction l with
  | nil => intro _; simp [insertSorted, cmpSorted]
  | cons y t ih =>
    intro h
    by_cases hxy : le x y = true
    · simp only [insertSorted, if_pos hxy]
      exact List.chain'_cons'.mpr ⟨fun z hz => by
        cases hz
        exact hxy, h⟩
    · simp only [insertSorted, if_neg hxy]
      have hyx : le y x = true := (htot x y).resolve_left hxy
      have hyt := List.chain'_cons'.mp h
      refine List.chain'_cons'.mpr ⟨?_, ih hyt.2⟩
      intro z hz
      rcases insertSorted_headOpt le x t with hh | hh
      · rw [hh] at hz
        cases hz
        exact hyx
      · rw [hh] at hz
        exact hyt.1 z hz

theorem sortByCmp_cmpSorted {α : Type} (le : α → α → Bool)
    (htot : ∀ a b, le a b = true ∨ le b a = true) :
    ∀ l : List α, cmpSorted le (sortByCmp le l) := by
  intro l
  induction l with
  | nil => simp [sortByCmp, cmpSorted]
  | cons x t ih => exact cmpSorted_insertSorted le htot x _ ih

theorem sortByCmp_of_cmpSorted {α : Type} (le : α → α → Bool) :
    ∀ l : List α, cmpSorted le l → sortByCmp le l = l := by
  intro l
  induction l with
  | nil => intro _; rfl
  | cons x t ih =>
    intro h
    have ht : sortByCmp le t = t := ih (List.Chain'.tail h)
    simp only [sortByCmp, ht]
    cases t with
    | nil => rfl
    | cons z t2 =>
      have hxz : le x z = true := (List.chain'_cons.mp h).1
      simp [insertSorted, hxz]

/-- Lexicographic boolean comparison of `Nat` lists: the sort keys of
the orderer are encoded as `Nat` lists compared by this order. -/
def natListLe : List Nat → List Nat → Bool
  | [], _ => true
  | _ :: _, [] => false
  | a :: as, b :: bs =>
    decide (a < b) || (decide (a = b) && natListLe as bs)

theorem natListLe_total : ∀ a b : List Nat, natListLe a b = true ∨ natListLe b a = true := by
  intro a
  induction a with
  | nil => intro b; left; cases b <;> rfl
  | cons x as ih =>
    intro b
    cases b with
    | nil => right; rfl
    | cons y bs =>
      rcases Nat.lt_trichotomy x y with h | h | h
      · left; simp [natListLe, h]
      · subst h
        rcases ih bs with h2 | h2
        · left; simp [natListLe, h2]
        · right; simp [natListLe, h2]
      · right; simp [natListLe, h]

/-! ## Source unit fixer

Modelled from the spec: `SourceFile.Fix` is absent from src (only its tests
are present), so the Import Classifier & Orderer pipeline of spec section
4.3 is embedded from the spec's words, over the same `FileA` units and the
source-backed `UsedImports`: (1) optionally drop unused non-blank and
non-dot imports; (2) classify by first-match precedence blank, dot, standard
(dot-free first path segment), company prefix, project prefix, general;
(3) sort within buckets by effective identity with full-path tie-break
(blank/dot buckets by path); (4) separate-named pulls aliased imports into
a trailing subgroup of their bucket (realized as a leading named-flag sort
component, which yields exactly the stably partitioned arrangement);
(5) concatenate buckets in configured order; (6) alias-rewrite gives
version-suffixed paths their preceding segment as alias.  The changed flag
is output-differs-from-input, per the spec. -/

/-- The configurable import buckets. -/
inductive Bucket where
  | std
  | general
  | company
  | project
  | blank
  | dot
deriving DecidableEq, Repr

/-- The fixer configuration (spec section 9: one structure of named flags). -/
structure FixConfig where
  removeUnused : Bool
  setAlias : Bool
  separateNamed : Bool
  companyPrefixes : List String
  projectName : String
  groupOrder : List Bucket
deriving DecidableEq, Repr

/-- All six buckets, in canonical order. -/
def allBuckets : List Bucket := [.std, .general, .company, .project, .blank, .dot]

/-- The configured order completed with the missing buckets, so that
every import has a home bucket; duplicates in the configured order are dropped
(spec: GroupOrder has no duplicates). -/
def fullOrder (go : List Bucket) : List Bucket :=
  go.dedup ++ allBuckets.filter (fun b => decide (¬ b ∈ go))

/-- Boolean prefix test on char lists (the company/project prefix match). -/
def listStartsWith : List Char → List Char → Bool
  | [], _ => true
  | _ :: _, [] => false
  | a :: as, b :: bs => decide (a = b) && listStartsWith as bs

/-- `p` is a prefix of `s`. -/
def strStartsWith (p s : String) : Bool := listStartsWith p.data s.data

/-- Standard-library heuristic: the first path segment contains no dot. -/
def isStdPath (p : String) : Bool :=
  !((p.data.takeWhile (fun c => ¬ (c = '/'))).contains '.')

/-- The effective identity used for ordering: the explicit alias when
present, else the name inferred from the path. -/
def effectiveIdentity (s : ImportSpecA) : String :=
  match s.name with
  | some n => n
  | none => lastSegAfterSlash (trimQuotes s.pathValue)

/-- Bucket classification by first-match precedence. -/
def classify (cfg : FixConfig) (s : ImportSpecA) : Bucket :=
  let path := trimQuotes s.pathValue
  if s.name = some "_" then .blank
  else if s.name = some "." then .dot
  else if isStdPath path then .std
  else if cfg.companyPrefixes.any (fun p => strStartsWith p path) then .company
  else if strStartsWith cfg.projectName path then .project
  else .general

/-- Encode a string for lexicographic key comparison: char codes shifted by
one so that the `0` component separator sorts before every character, which
makes `natListLe` on the concatenation agree with identity-then-path
comparison. -/
def strEnc (s : String) : List Nat := s.data.map (fun c => c.toNat + 1)

/-- The sort key of an import inside bucket `b`: blank/dot buckets order by
path; other buckets by (named-subgroup flag when separate-named is on,
effective identity, full path). -/
def keyFor (cfg : FixConfig) (b : Bucket) (s : ImportSpecA) : List Nat :=
  if b = .blank ∨ b = .dot then
    0 :: strEnc (trimQuotes s.pathValue)
  else
    (if cfg.separateNamed && !(s.name = none) then 1 else 0)
      :: (strEnc (effectiveIdentity s) ++ 0 :: strEnc (trimQuotes s.pathValue))

/-- Comparator on imports within bucket `b`. -/
def leImp (cfg : FixConfig) (b : Bucket) (x y : ImportSpecA) : Bool :=
  natListLe (keyFor cfg b x) (keyFor cfg b y)

theorem leImp_total (cfg : FixConfig) (b : Bucket) :
    ∀ x y, leImp cfg b x y = true ∨ leImp cfg b y x = true := by
  intro x y
  exact natListLe_total (keyFor cfg b x) (keyFor cfg b y)

/-- A version-suffix path segment: `v` followed by at least one digit. -/
def isVersionSeg (seg : String) : Bool :=
  match seg.data with
  | [] => false
  | c :: rest => decide (c = 'v') && (decide (rest ≠ []) && rest.all (fun d => d.isDigit))

/-- The characters before the last slash (empty when there is no slash). -/
def beforeLastSlash (s : String) : String :=
  String.mk (((s.data.reverse.dropWhile (fun c => ¬ (c = '/'))).drop 1).reverse)

/-- Alias-rewrite: an unaliased import whose final path segment is a
version marker receives the preceding segment as its alias. -/
def rewriteAlias (s : ImportSpecA) : ImportSpecA :=
  match s.name with
  | some _ => s
  | none =>
    let path := trimQuotes s.pathValue
    if isVersionSeg (lastSegAfterSlash path) && path.data.contains '/' then
      { s with name := some (lastSegAfterSlash (beforeLastSlash path)) }
    else s

/-- The full organize pipeline on a unit's imports: drop unused (per the
source-backed `UsedImports`), bucket, sort, concatenate in completed order,
then alias-rewrite (spec steps 1-6). -/
def organizeImports (cfg : FixConfig) (pi : List (String × String)) (u : FileA) :
    List ImportSpecA :=
  let used := UsedImports u pi
  let kept := removeUnusedImports cfg.removeUnused u.imports used
  let order := fullOrder cfg.groupOrder
  let grouped := (order.map (fun b =>
      sortByCmp (leImp cfg b) (kept.filter (fun s => decide (classify cfg s = b))))).flatten
  if cfg.setAlias then grouped.map rewriteAlias else grouped

/-- `SourceFile.Fix` on a unit: the organized output and the changed flag
(output differs from input). -/
def fixUnit (cfg : FixConfig) (pi : List (String × String)) (u : FileA) : FileA × Bool :=
  let out : FileA := { imports := organizeImports cfg pi u, body := u.body }
  (out, decide (¬ out = u))

theorem mem_allBuckets (b : Bucket) : b ∈ allBuckets := by
  cases b <;> simp [allBuckets]

theorem mem_fullOrder (go : List Bucket) (b : Bucket) : b ∈ fullOrder go := by
  by_cases hbg : b ∈ go
  · exact List.mem_append_left _ (List.mem_dedup.mpr hbg)
  · exact List.mem_append_right _
      (List.mem_filter.mpr ⟨mem_allBuckets b, by simpa using hbg⟩)

theorem fullOrder_nodup (go : List Bucket) : (fullOrder go).Nodup := by
  refine List.Nodup.append (List.nodup_dedup go) (List.Nodup.filter _ (by decide)) ?_
  intro x hx1 hx2
  have h1 : x ∈ go := List.mem_dedup.mp hx1
  have h2 := List.of_mem_filter hx2
  simp only [decide_eq_true_eq] at h2
  exact h2 h1

theorem filter_flatten_of_partition {α : Type} (pr : α → Bucket) (g : Bucket → List α)
    (hg : ∀ b2 x, x ∈ g b2 → pr x = b2) (b : Bucket) :
    ∀ order : List Bucket, order.Nodup → b ∈ order →
      List.filter (fun x => decide (pr x = b)) (order.map g).flatten = g b := by
  intro order
  induction order with
  | nil => intro _ hb; cases hb
  | cons b2 rest ih =>
    intro hnd hb
    have hnd2 := List.nodup_cons.mp hnd
    simp only [List.map_cons, List.flatten_cons, List.filter_append]
    by_cases hbb : b = b2
    · subst hbb
      have h1 : List.filter (fun x => decide (pr x = b)) (g b) = g b :=
        List.filter_eq_self.mpr (fun a ha => by simp [hg b a ha])
      have h2 : List.filter (fun x => decide (pr x = b)) (rest.map g).flatten = [] := by
        apply List.filter_eq_nil_iff.mpr
        intro a ha
        obtain ⟨l, hl, hal⟩ := List.mem_flatten.mp ha
        obtain ⟨b3, hb3, rfl⟩ := List.mem_map.mp hl
        have hpr := hg b3 a hal
        simp only [decide_eq_true_eq]
        intro hab
        have hb3b : b3 = b := by rw [← hpr, hab]
        exact hnd2.1 (hb3b ▸ hb3)
      rw [h1, h2, List.append_nil]
    · have h1 : List.filter (fun x => decide (pr x = b)) (g b2) = [] := by
        apply List.filter_eq_nil_iff.mpr
        intro a ha
        simp only [decide_eq_true_eq]
        intro hab
        rw [hg b2 a ha] at hab
        exact hbb hab.symm
      have hbrest : b ∈ rest := by
        rcases List.mem_cons.mp hb with h | h
        · exact absurd h hbb
        · exact h
      rw [h1, List.nil_append]
      exact ih hnd2.2 hbrest

theorem organizeImports_idem (cfg : FixConfig) (pi : List (String × String)) (u : FileA)
    (hru : cfg.removeUnused = false) (hsa : cfg.setAlias = false) :
    organizeImports cfg pi { imports := organizeImports cfg pi u, body := u.body }
      = organizeImports cfg pi u := by
  have horg : ∀ w : FileA, organizeImports cfg pi w
      = ((fullOrder cfg.groupOrder).map (fun b =>
          sortByCmp (leImp cfg b)
            (w.imports.filter (fun s => decide (classify cfg s = b))))).flatten := by
    intro w
    simp [organizeImports, removeUnusedImports, hru, hsa]
  rw [horg, horg]
  dsimp only
  congr 1
  apply List.map_congr_left
  intro b hb
  have hg : ∀ (b2 : Bucket) (x : ImportSpecA),
      x ∈ sortByCmp (leImp cfg b2)
            (u.imports.filter (fun s => decide (classify cfg s = b2))) →
      classify cfg x = b2 := by
    intro b2 x hx
    have hx2 := (mem_sortByCmp _ _ x).mp hx
    exact decide_eq_true_eq.mp (List.mem_filter.mp hx2).2
  rw [filter_flatten_of_partition (classify cfg)
        (fun b2 => sortByCmp (leImp cfg b2)
          (u.imports.filter (fun s => decide (classify cfg s = b2))))
        hg b (fullOrder cfg.groupOrder) (fullOrder_nodup _) (mem_fullOrder _ b)]
  exact sortByCmp_of_cmpSorted _ _ (sortByCmp_cmpSorted _ (leImp_total cfg b) _)

/-- C9 (amended): the changed flag is set exactly when the output differs
from the input (always); and the fixer is idempotent — a second run on its
own output reports no change and returns its input — whenever unused-import
removal and alias-rewrite are both disabled.  (With alias-rewrite on, the
first run sorts before aliasing, so the added alias can reorder the bucket
on the second run; with removal on, re-running usage analysis on the
reordered import list can re-attribute a shadowed name and drop a
previously kept import — both refuted concretely below.) -/
theorem C9_fix_changed_flag_and_idempotence (cfg : FixConfig)
    (pi : List (String × String)) (u : FileA) :
    ((fixUnit cfg pi u).2 = true ↔ (fixUnit cfg pi u).1 ≠ u)
    ∧ (cfg.removeUnused = false → cfg.setAlias = false →
        fixUnit cfg pi (fixUnit cfg pi u).1 = ((fixUnit cfg pi u).1, false)) := by
  constructor
  · simp [fixUnit]
  · intro hru hsa
    have hidem := organizeImports_idem cfg pi u hru hsa
    simp [fixUnit, hidem]

/-- Alias-rewrite counterexample configuration: std,general,company,project
order, alias-rewrite on, removal off. -/
def c9cfgAlias : FixConfig :=
  ⟨false, true, false, [], "proj", [.std, .general, .company, .project]⟩

/-- Two general-bucket imports, one with a version-suffixed path. -/
def c9unitAlias : FileA :=
  ⟨[⟨none, "\"github.com/a/pg/v9\""⟩, ⟨none, "\"github.com/b/qq\""⟩], .leaf⟩

/-- Removal counterexample configuration: removal on, alias-rewrite off. -/
def c9cfgRemove : FixConfig :=
  ⟨true, false, false, [], "proj", [.std, .general, .company, .project]⟩

/-- Three imports where two aliases collide on the name `n`; the body
references `m.X` and `n.X`. -/
def c9unitRemove : FileA :=
  ⟨[⟨some "m", "\"github.com/z/zz\""⟩, ⟨some "n", "\"github.com/z/zz\""⟩,
    ⟨some "n", "\"github.com/a/aa\""⟩],
   .branch (.selector (.ident "m" false) "X") (.selector (.ident "n" false) "X")⟩

/-- C9 counterexample: running the fixer a second time on its own output is
not a no-op — with alias-rewrite enabled the newly added alias re-sorts the
bucket (changed=true and different bytes on the second run), and with
unused-removal enabled the re-sorted import list re-attributes the shadowed
alias `n` and drops an import on the second run. -/
theorem C9_idempotence_counterexample :
    ((fixUnit c9cfgAlias [] (fixUnit c9cfgAlias [] c9unitAlias).1).2 = true
      ∧ (fixUnit c9cfgAlias [] (fixUnit c9cfgAlias [] c9unitAlias).1).1
          ≠ (fixUnit c9cfgAlias [] c9unitAlias).1)
    ∧ (fixUnit c9cfgRemove [] (fixUnit c9cfgRemove [] c9unitRemove).1).2 = true := by
  exact ⟨⟨by decide, by decide⟩, by decide⟩

/-- Plain configuration: both removal and alias-rewrite disabled. -/
def c9cfgPlain : FixConfig :=
  ⟨false, false, false, [], "proj", [.std, .general, .company, .project]⟩

/-- C9 witness: with both flags off, the second run on the concrete unit is
a no-op. -/
theorem C9_fix_changed_flag_and_idempotence_witness :
    c9cfgPlain.removeUnused = false
    ∧ c9cfgPlain.setAlias = false
    ∧ fixUnit c9cfgPlain [] (fixUnit c9cfgPlain [] c9unitAlias).1
        = ((fixUnit c9cfgPlain [] c9unitAlias).1, false) :=
  ⟨rfl, rfl,
    (C9_fix_changed_flag_and_idempotence c9cfgPlain [] c9unitAlias).2 rfl rfl⟩

end GoimportsRereviser
